import Mathlib

/-!
Verification development for the tageval package: tag-driven struct validation
via JavaScript boolean expressions and regular expressions.

The embedding follows src/unnamed/part_003 (the current validator.go: the
version with the `safe` flag, the private-field access error, and the
addressable-handle variant of validation, matching the embedded tests in
src/doc.go) together with src/evaluator.go (the current evaluator: compiled
scripts memoized per literal expression text, regexps memoized per pattern
text, regexp compilation via regexp.MustCompile).

The otto JavaScript engine, the Go regexp engine and fmt are external
dependencies, modeled abstractly by the `Engine` structure.  Mutation of the
otto VM and of the two caches is modeled by explicit `EvalState` passing.
Go runtime panics are distinguished from returned Go errors by the `Failure`
type.  The flagRO / addressability bits of reflect.Value are made explicit
as the booleans `ro` and `addrOK` threaded through the traversal.
Float, complex and array kinds are not modeled (no claim concerns them);
strings stand in for Go strings, Int for the int kinds, Nat for the uint
kinds.  time.Time is an opaque record kind carrying its epoch milliseconds.
The slice, map and struct payloads are dedicated mutual inductives
(`Values`, `Pairs`, `Fields`) rather than nested lists, so that every
definition is structurally recursive and computes definitionally.
-/

namespace Tageval

/-- The reflect kinds distinguished by the code paths under study. -/
inductive Kind where
  | kString
  | kInt
  | kUint
  | kBool
  | kPtr
  | kIface
  | kSlice
  | kMap
  | kStruct
  deriving DecidableEq

mutual
/-- A Go runtime value as seen by reflect, shaped by its declared type.
`vptrNil` is a nil pointer, `vifaceNil` a nil interface; `vptr w` points at
`w` and `viface w` holds the concrete value `w`.  `vtime` is the opaque
time.Time value (a struct kind in Go, never descended into). -/
inductive Value where
  | vstr (s : String)
  | vint (i : Int)
  | vuint (n : Nat)
  | vbool (b : Bool)
  | vptrNil
  | vptr (w : Value)
  | vifaceNil
  | viface (w : Value)
  | vslice (xs : Values)
  | vmap (kvs : Pairs)
  | vstruct (fs : Fields)
  | vtime (ms : Int)

/-- The elements of a slice value. -/
inductive Values where
  | nil
  | cons (x : Value) (rest : Values)

/-- The key/value entries of a map value, in host iteration order. -/
inductive Pairs where
  | nil
  | cons (k : Value) (w : Value) (rest : Pairs)

/-- The declared fields of a struct value, in declaration order. -/
inductive Fields where
  | nil
  | cons (f : Field) (rest : Fields)

/-- One declared struct field: its name, the `expr` tag text, the `regexp`
tag text (empty string means the tag is absent, as with Tag.Get), the `json`
tag (`none` when Lookup reports absence) and the field value. -/
inductive Field where
  | mk (name : String) (exprTag : String) (regexpTag : String)
      (jsonTag : Option String) (fval : Value)
end

def Field.name : Field → String
  | .mk n _ _ _ _ => n

def Field.exprTag : Field → String
  | .mk _ e _ _ _ => e

def Field.regexpTag : Field → String
  | .mk _ _ r _ _ => r

def Field.jsonTag : Field → Option String
  | .mk _ _ _ j _ => j

def Field.fval : Field → Value
  | .mk _ _ _ _ w => w

/-- reflect.Type.Kind of the declared type of a value. -/
def Value.kind : Value → Kind
  | .vstr _ => .kString
  | .vint _ => .kInt
  | .vuint _ => .kUint
  | .vbool _ => .kBool
  | .vptrNil => .kPtr
  | .vptr _ => .kPtr
  | .vifaceNil => .kIface
  | .viface _ => .kIface
  | .vslice _ => .kSlice
  | .vmap _ => .kMap
  | .vstruct _ => .kStruct
  | .vtime _ => .kStruct

/-- The exported-name test of traverse: the first rune of the field name is
upper case.  An empty name yields the zero rune, which is not upper case. -/
def isExportedName (s : String) : Bool :=
  match s.data with
  | [] => false
  | c :: _ => c.isUpper

mutual
/-- reflect.DeepEqual of a value against the zero value of its own type,
as used by the omitempty check of processTag. -/
def isZero : Value → Bool
  | .vstr s => s == ""
  | .vint i => i == 0
  | .vuint n => n == 0
  | .vbool b => b == false
  | .vptrNil => true
  | .vptr _ => false
  | .vifaceNil => true
  | .viface _ => false
  | .vslice xs => isZeroValues xs
  | .vmap kvs => isZeroPairs kvs
  | .vstruct fs => isZeroFields fs
  | .vtime ms => ms == 0

def isZeroValues : Values → Bool
  | .nil => true
  | .cons _ _ => false

def isZeroPairs : Pairs → Bool
  | .nil => true
  | .cons _ _ _ => false

def isZeroFields : Fields → Bool
  | .nil => true
  | .cons (.mk _ _ _ _ w) fs => isZero w && isZeroFields fs
end

/-- Outcome of a Go computation: `goError` is an error value returned through
the function results; `goPanic` is a runtime panic, which crashes the call
instead of reaching the caller as an error value. -/
inductive Failure where
  | goError (msg : String)
  | goPanic (msg : String)
  deriving DecidableEq

/-- The external backends: the otto JavaScript engine, the Go regexp engine
and fmt, together with the type-mapper registry contents.  `typeMap` returns
the materialized otto object (or a mapping error) for values whose exact type
has a registered renderer, `none` for all other values.  `jsCompileOk` says
whether vm.Compile succeeds on a source text; `jsRun` runs a compiled text
under the global bindings (latest binding first).  `regexpValid` says whether
the pattern compiles; `regexpMatch pattern s` is the unanchored match.
`sprint` is the default fmt rendering used by iToStr. -/
structure Engine where
  typeMap : Value → Option (Except String Value)
  jsCompileOk : String → Bool
  jsRun : List (String × Value) → String → Except String Bool
  regexpValid : String → Bool
  regexpMatch : String → String → Bool
  sprint : Value → String

/-- The mutable state owned by one evaluator: the otto VM global scope (as an
association list, latest Set first), the compiled-script cache keys, the
compiled-regexp cache keys, and a count of vm.Compile calls (instrumentation
for the cache claims; the compiled unit itself is determined by its text). -/
structure EvalState where
  vmBinds : List (String × Value)
  scripts : List String
  regexps : List String
  compiles : Nat

/-- evalBoolExpr of evaluator.go: consult the type-mapper registry, bind the
field name in the VM global scope, memoize the compiled script by its literal
text, run it and coerce to boolean.  Compile and run failures are returned
Go errors. -/
def evalBoolExpr (eng : Engine) (st : EvalState) (name : String) (val : Value)
    (expr : String) : Except Failure (Bool × EvalState) :=
  let mapped : Except String Value :=
    match eng.typeMap val with
    | some r => r
    | none => .ok val
  match mapped with
  | .error e => .error (.goError e)
  | .ok val1 =>
    let st1 : EvalState := { st with vmBinds := (name, val1) :: st.vmBinds }
    if st1.scripts.contains expr then
      match eng.jsRun st1.vmBinds expr with
      | .error e => .error (.goError e)
      | .ok b => .ok (b, st1)
    else if eng.jsCompileOk expr then
      let st2 : EvalState :=
        { st1 with scripts := expr :: st1.scripts, compiles := st1.compiles + 1 }
      match eng.jsRun st2.vmBinds expr with
      | .error e => .error (.goError e)
      | .ok b => .ok (b, st2)
    else
      .error (.goError ("compile error: " ++ expr))

/-- evalRegexp of evaluator.go: memoize the compiled pattern by its text.
The code compiles through regexp.MustCompile, so an invalid pattern is a
runtime panic, not a returned error; the error result of the function is
always nil. -/
def evalRegexp (eng : Engine) (st : EvalState) (val : String) (pattern : String) :
    Except Failure (Bool × EvalState) :=
  if st.regexps.contains pattern then
    .ok (eng.regexpMatch pattern val, st)
  else if eng.regexpValid pattern then
    .ok (eng.regexpMatch pattern val,
         { st with regexps := pattern :: st.regexps })
  else
    .error (.goPanic ("regexp: Compile: error parsing regexp: " ++ pattern))

/-- iToStr of validator.go: string passthrough, booleans as true/false,
integer kinds in decimal, the fmt default otherwise.  (The fmt.Stringer case
of the source is not exercised by the structural values modeled here.) -/
def iToStr (eng : Engine) : Value → String
  | .vstr s => s
  | .vbool b => if b then "true" else "false"
  | .vint i => toString i
  | .vuint n => toString n
  | w => eng.sprint w

/-- strings.TrimSpace on the character list of a string. -/
def trimSpaceChars (cs : List Char) : List Char :=
  ((cs.dropWhile Char.isWhitespace).reverse.dropWhile Char.isWhitespace).reverse

/-- Whether the first list is a prefix of the second. -/
def charsPref : List Char → List Char → Bool
  | [], _ => true
  | _ :: _, [] => false
  | p :: ps, c :: cs => p == c && charsPref ps cs

/-- strings.HasSuffix. -/
def strHasSuffix (s pat : String) : Bool :=
  charsPref pat.data.reverse s.data.reverse

/-- Whether the shorthand rewrite of processTag fires on the trimmed
expression text: first byte one of the relational starters, a leading
exclamation mark only together with a following equals sign. -/
def shTriggers (ts : List Char) : Bool :=
  match ts with
  | [] => false
  | c :: rest =>
    if c == '!' then
      match rest with
      | c2 :: _ => c2 == '='
      | [] => false
    else c == '<' || c == '>' || c == '='

/-- The shorthand-rewrite step of processTag: trim the expression text and
inspect its first byte.  The source indexes ts[0] without an emptiness
check, so a text whose trimmed form is empty is an index-out-of-range
runtime fault, modeled as `none`. -/
def shorthandRewrite (fieldName : String) (exprTag : String) : Option String :=
  let ts := trimSpaceChars exprTag.data
  match ts with
  | [] => none
  | c :: rest =>
    if c == '!' then
      match rest with
      | c2 :: _ =>
          if c2 == '=' then some (fieldName ++ " " ++ exprTag)
          else some exprTag
      | [] => some exprTag
    else if c == '<' || c == '>' || c == '=' then
      some (fieldName ++ " " ++ exprTag)
    else
      some exprTag

/-- The inner unwrap loop of the private-field path of processTag: follow
interface and pointer links; a nil link means the field is silently skipped
(`none`); otherwise the landed value together with its addressability (true
exactly when the last link followed was a pointer, since Elem of a pointer
is addressable and Elem of an interface is not). -/
def privLoop : Value → Option (Value × Bool)
  | .vptrNil => none
  | .vifaceNil => none
  | .vptr w =>
      match w with
      | .vptrNil => none
      | .vifaceNil => none
      | .vptr _ => privLoop w
      | .viface _ => privLoop w
      | _ => some (w, true)
  | .viface w =>
      match w with
      | .vptrNil => none
      | .vifaceNil => none
      | .vptr _ => privLoop w
      | .viface _ => privLoop w
      | _ => some (w, false)
  | w => some (w, false)

/-- The concrete-value resolution of processTag (the one-level unwrap, the
CanInterface test, the private primitive cases and the private default case
with its access check).  `ro` is the flagRO bit of the incoming value
(CanInterface is its negation), `addrOK` its addressability.  `.ok none`
means processTag returns silently; the error is the private-access failure.
In non-safe addressable mode the default case reads the value through an
unsafe pointer, yielding the value itself. -/
def resolveConcrete (safe ro addrOK : Bool) (fieldName : String) (val : Value) :
    Except Failure (Option Value) :=
  let unwrapped : Option Value × Bool :=
    match val with
    | .vptrNil => (none, true)
    | .vptr w => (some w, true)
    | .vifaceNil => (none, false)
    | .viface w => (some w, false)
    | w => (some w, addrOK)
  match unwrapped with
  | (none, _) => .ok none
  | (some val1, addr1) =>
    if !ro then .ok (some val1)
    else
      match val1 with
      | .vstr s => .ok (some (.vstr s))
      | .vint i => .ok (some (.vint i))
      | .vuint n => .ok (some (.vuint n))
      | .vbool b => .ok (some (.vbool b))
      | .vptrNil => .ok none
      | .vptr w =>
          (match privLoop (.vptr w) with
           | none => .ok none
           | some (w1, a) =>
              if safe || !a then
                .error (.goError ("cannot access private field: " ++ fieldName))
              else .ok (some w1))
      | .vifaceNil => .ok none
      | .viface w =>
          (match privLoop (.viface w) with
           | none => .ok none
           | some (w1, a) =>
              if safe || !a then
                .error (.goError ("cannot access private field: " ++ fieldName))
              else .ok (some w1))
      | w =>
          if safe || !addr1 then
            .error (.goError ("cannot access private field: " ++ fieldName))
          else .ok (some w)

/-- One recorded evaluation: field name, resolved value, declared type
(modeled by its kind), the evaluated expression text, the outcome. -/
structure Result where
  name : String
  value : Value
  ty : Kind
  expr : String
  valid : Bool

/-- The validator configuration: obey JSON serialization semantics, and
whether successful evaluations are recorded too. -/
structure Validator where
  asJSON : Bool
  showSuccesses : Bool

/-- The expression half of the evaluation section of processTag: the
shorthand rewrite, then evalBoolExpr, the outcome recorded only when it
failed or showSuccesses is set. -/
def exprPhase (eng : Engine) (v : Validator) (f : Field) (iface : Value)
    (st : EvalState) (res : List Result) :
    Except Failure (EvalState × List Result) :=
  if f.exprTag == "" then .ok (st, res)
  else
    match shorthandRewrite f.name f.exprTag with
    | none => .error (.goPanic "runtime error: index out of range")
    | some expr =>
      match evalBoolExpr eng st f.name iface expr with
      | .error e => .error e
      | .ok (bv, st1) =>
        if !bv || v.showSuccesses then
          .ok (st1, res ++ [{ name := f.name, value := iface,
                              ty := f.fval.kind, expr := expr, valid := bv }])
        else .ok (st1, res)

/-- The regexp half of the evaluation section of processTag: stringify the
value, then evalRegexp, the outcome recorded only when it failed or
showSuccesses is set. -/
def regexpPhase (eng : Engine) (v : Validator) (f : Field) (iface : Value)
    (st : EvalState) (res : List Result) :
    Except Failure (EvalState × List Result) :=
  if f.regexpTag == "" then .ok (st, res)
  else
    match evalRegexp eng st (iToStr eng iface) f.regexpTag with
    | .error e => .error e
    | .ok (bv, st3) =>
      if !bv || v.showSuccesses then
        .ok (st3, res ++ [{ name := f.name, value := iface,
                            ty := f.fval.kind, expr := f.regexpTag,
                            valid := bv }])
      else .ok (st3, res)

/-- The evaluation section of processTag: the expression rule first, then
the pattern rule on the updated state and result list. -/
def validateField (eng : Engine) (v : Validator) (f : Field) (iface : Value)
    (st : EvalState) (res : List Result) :
    Except Failure (EvalState × List Result) :=
  match exprPhase eng v f iface st res with
  | .error e => .error e
  | .ok (st2, res2) => regexpPhase eng v f iface st2 res2

/-- processTag of validator.go: skip when neither tag is present, when the
json directive excludes the field, when the value is invalid after the
unwrap, or when the omitempty zero-value elision fires; otherwise resolve
the concrete value and evaluate. -/
def processTag (eng : Engine) (v : Validator) (f : Field) (val : Value)
    (ro safe addrOK : Bool) (st : EvalState) (res : List Result) :
    Except Failure (EvalState × List Result) :=
  if f.exprTag == "" && f.regexpTag == "" then .ok (st, res)
  else
    let jtag := f.jsonTag.getD ""
    if v.asJSON && jtag == "-" then .ok (st, res)
    else
      match resolveConcrete safe ro addrOK f.name val with
      | .error e => .error e
      | .ok none => .ok (st, res)
      | .ok (some iface) =>
        if v.asJSON && !(f.fval.kind == Kind.kStruct) &&
            strHasSuffix jtag ",omitempty" && isZero iface then
          .ok (st, res)
        else
          validateField eng v f iface st res

mutual
/-- traverse of validator.go: depth-first walk of the value graph.  time.Time
is opaque; leaf kinds need no action; slices visit each element in order; a
nil pointer is skipped, otherwise the pointee is visited; maps visit every
key then its value; a nil interface is skipped, otherwise the held value is
visited; struct fields are visited in declaration order, tag processing
first (skipped for non-exported names under JSON semantics), then recursion
into the field value.  `ro` and `addrOK` are the reflect flags of `val`. -/
def traverse (eng : Engine) (v : Validator) (safe ro addrOK : Bool)
    (val : Value) (st : EvalState) (res : List Result) :
    Except Failure (EvalState × List Result) :=
  match val with
  | .vtime _ => .ok (st, res)
  | .vstr _ => .ok (st, res)
  | .vint _ => .ok (st, res)
  | .vuint _ => .ok (st, res)
  | .vbool _ => .ok (st, res)
  | .vslice xs => traverseElems eng v safe ro addrOK xs st res
  | .vptrNil => .ok (st, res)
  | .vptr w => traverse eng v safe ro true w st res
  | .vmap kvs => traverseEntries eng v safe ro kvs st res
  | .vifaceNil => .ok (st, res)
  | .viface w => traverse eng v safe ro false w st res
  | .vstruct fields => traverseFields eng v safe ro addrOK fields st res

/-- The element loop of the slice case of traverse. -/
def traverseElems (eng : Engine) (v : Validator) (safe ro addrOK : Bool)
    (xs : Values) (st : EvalState) (res : List Result) :
    Except Failure (EvalState × List Result) :=
  match xs with
  | .nil => .ok (st, res)
  | .cons x rest =>
    match traverse eng v safe ro addrOK x st res with
    | .error e => .error e
    | .ok (st1, res1) => traverseElems eng v safe ro addrOK rest st1 res1

/-- The key/value loop of the map case of traverse (keys and values obtained
through a map are not addressable). -/
def traverseEntries (eng : Engine) (v : Validator) (safe ro : Bool)
    (kvs : Pairs) (st : EvalState) (res : List Result) :
    Except Failure (EvalState × List Result) :=
  match kvs with
  | .nil => .ok (st, res)
  | .cons k w rest =>
    match traverse eng v safe ro false k st res with
    | .error e => .error e
    | .ok (st1, res1) =>
      match traverse eng v safe ro false w st1 res1 with
      | .error e => .error e
      | .ok (st2, res2) => traverseEntries eng v safe ro rest st2 res2

/-- The field loop of the struct case of traverse: under JSON semantics a
field with a non-exported name is skipped for tag processing but still
recursed into; reading a non-exported field sets the flagRO bit of the
field value. -/
def traverseFields (eng : Engine) (v : Validator) (safe ro addrOK : Bool)
    (fields : Fields) (st : EvalState) (res : List Result) :
    Except Failure (EvalState × List Result) :=
  match fields with
  | .nil => .ok (st, res)
  | .cons (.mk n e r j w) rest =>
    let ro1 := ro || !(isExportedName n)
    let step1 : Except Failure (EvalState × List Result) :=
      if v.asJSON && !(isExportedName n) then .ok (st, res)
      else processTag eng v (.mk n e r j w) w ro1 safe addrOK st res
    match step1 with
    | .error e => .error e
    | .ok (st1, res1) =>
      match traverse eng v safe ro1 addrOK w st1 res1 with
      | .error e => .error e
      | .ok (st2, res2) => traverseFields eng v safe ro addrOK rest st2 res2
end

/-- The aggregation loop of doValidation: start from true, drop to false at
the first invalid result. -/
def allValid : List Result → Bool
  | [] => true
  | r :: rest => if !r.valid then false else allValid rest

/-- doValidation of validator.go: traverse from an empty result list; on a
traversal error return it (the Go code returns false and a nil result list
alongside); otherwise aggregate. -/
def doValidation (eng : Engine) (v : Validator) (rv : Value)
    (safe ro addrOK : Bool) (st : EvalState) :
    Except Failure (Bool × List Result × EvalState) :=
  match traverse eng v safe ro addrOK rv st [] with
  | .error e => .error e
  | .ok (st1, res) => .ok (allValid res, res, st1)

/-- Validate: the root value comes from reflect.ValueOf, so it is neither
flagRO nor addressable; safe mode is on. -/
def Validate (eng : Engine) (v : Validator) (item : Value) (st : EvalState) :
    Except Failure (Bool × List Result × EvalState) :=
  doValidation eng v item true false false st

/-- ValidateAddressable: the handle must be of pointer or interface kind,
otherwise a descriptive error; validation runs on its referent with safe
mode off (Elem of a pointer is addressable, Elem of an interface is not).
A nil handle makes traverse call Type on the invalid reflect.Value, a
runtime panic. -/
def ValidateAddressable (eng : Engine) (v : Validator) (itemAddr : Value)
    (st : EvalState) : Except Failure (Bool × List Result × EvalState) :=
  match itemAddr with
  | .vptr w => doValidation eng v w false false true st
  | .viface w => doValidation eng v w false false false st
  | .vptrNil =>
      .error (.goPanic "reflect: call of reflect.Value.Type on zero Value")
  | .vifaceNil =>
      .error (.goPanic "reflect: call of reflect.Value.Type on zero Value")
  | w =>
      .error (.goError ("supplied item (" ++ eng.sprint w ++
        ") is not addressable"))

/-- Decimal digits to a number, accumulator style. -/
def digitsToNat (acc : Nat) : List Char → Nat
  | [] => acc
  | c :: cs => digitsToNat (acc * 10 + (c.toNat - 48)) cs

/-- A small concrete evaluation function for the scripting side of a sample
`Engine`, used to exercise the embedding on concrete inputs: it evaluates a
relational comparison of one integer variable against a nonnegative integer
literal, with optional spaces around the tokens (the scripting language does
not care about whitespace between tokens).  Anything else is a script
error. -/
def relEval (binds : List (String × Value)) (expr : String) :
    Except String Bool :=
  let cs := (expr.data).dropWhile (· == ' ')
  let nameCs := cs.takeWhile Char.isAlpha
  let rest := (cs.dropWhile Char.isAlpha).dropWhile (· == ' ')
  let opRest : String × List Char :=
    match rest with
    | '<' :: '=' :: r => ("le", r)
    | '>' :: '=' :: r => ("ge", r)
    | '=' :: '=' :: r => ("eq", r)
    | '!' :: '=' :: r => ("ne", r)
    | '<' :: r => ("lt", r)
    | '>' :: r => ("gt", r)
    | _ => ("bad", rest)
  let rest3 := opRest.2.dropWhile (· == ' ')
  let digits := rest3.takeWhile Char.isDigit
  let rest4 := (rest3.dropWhile Char.isDigit).dropWhile (· == ' ')
  if digits.isEmpty || !rest4.isEmpty || opRest.1 == "bad" then
    .error ("SyntaxError: " ++ expr)
  else
    match List.lookup (String.mk nameCs) binds with
    | some (.vint i) =>
      let n : Int := Int.ofNat (digitsToNat 0 digits)
      match opRest.1 with
      | "lt" => .ok (decide (i < n))
      | "gt" => .ok (decide (i > n))
      | "le" => .ok (decide (i ≤ n))
      | "ge" => .ok (decide (i ≥ n))
      | "eq" => .ok (decide (i = n))
      | _ => .ok (decide (i ≠ n))
    | _ => .error ("ReferenceError: " ++ String.mk nameCs)

/-- A sample external engine: scripts evaluate through `relEval` and always
compile; a regexp pattern is invalid exactly when it opens an unclosed
group (modeled: it starts with an opening parenthesis); matching a string
is modeled as equality with the pattern text. -/
def engRel : Engine where
  typeMap := fun _ => none
  jsCompileOk := fun _ => true
  jsRun := fun binds expr => relEval binds expr
  regexpValid := fun p =>
    match p.data with
    | '(' :: _ => false
    | _ => true
  regexpMatch := fun p s => p == s
  sprint := fun _ => "value"

/-- The two compile caches of `st` survive into `st2`. -/
def stMono (st st2 : EvalState) : Prop :=
  (∀ x ∈ st.scripts, x ∈ st2.scripts) ∧ (∀ x ∈ st.regexps, x ∈ st2.regexps)

/-- A fresh evaluator state, as produced by newEvaluator: empty VM scope,
empty caches. -/
def st0 : EvalState := ⟨[], [], [], 0⟩

/-- The configuration produced by NewValidator with no options. -/
def vDefault : Validator := ⟨true, false⟩

/-- JSON semantics off, successes shown (the configuration of the private
field test of the repository). -/
def vPriv : Validator := ⟨false, true⟩

mutual
/-- No field anywhere in the value carries an expr or regexp tag. -/
def tagFree : Value → Bool
  | .vstr _ => true
  | .vint _ => true
  | .vuint _ => true
  | .vbool _ => true
  | .vptrNil => true
  | .vptr w => tagFree w
  | .vifaceNil => true
  | .viface w => tagFree w
  | .vslice xs => tagFreeValues xs
  | .vmap kvs => tagFreePairs kvs
  | .vstruct fs => tagFreeFields fs
  | .vtime _ => true

def tagFreeValues : Values → Bool
  | .nil => true
  | .cons x rest => tagFree x && tagFreeValues rest

def tagFreePairs : Pairs → Bool
  | .nil => true
  | .cons k w rest => tagFree k && tagFree w && tagFreePairs rest

def tagFreeFields : Fields → Bool
  | .nil => true
  | .cons (.mk _ e r _ w) rest =>
      e == "" && r == "" && tagFree w && tagFreeFields rest
end

/-- Characterization of the private (flagRO) resolution hitting the unsafe
default branch: a value of one of the primitive kinds is read directly; a
pointer or interface chain ending in nil is silently skipped; everything
else needs the unsafe access path. -/
def privFails : Value → Bool
  | .vstr _ => false
  | .vint _ => false
  | .vuint _ => false
  | .vbool _ => false
  | .vptrNil => false
  | .vifaceNil => false
  | .vptr w => (privLoop (.vptr w)).isSome
  | .viface w => (privLoop (.viface w)).isSome
  | _ => true

/-- A tagged private field with this (pre-unwrap) value is not directly
obtainable: its resolution under flagRO reaches the unsafe default branch. -/
def notObtainable : Value → Bool
  | .vptrNil => false
  | .vifaceNil => false
  | .vptr w => privFails w
  | .viface w => privFails w
  | w => privFails w


/-! ## Helper lemmas -/

theorem allValid_eq_all (res : List Result) :
    allValid res = res.all (fun r => r.valid) := by
  induction res with
  | nil => rfl
  | cons r rest ih =>
    by_cases hb : r.valid
    · simp [allValid, hb, ih]
    · simp [allValid, hb]

theorem allValid_iff (res : List Result) :
    allValid res = true ↔ (res = [] ∨ ∀ r ∈ res, r.valid = true) := by
  rw [allValid_eq_all, List.all_eq_true]
  constructor
  · intro h
    exact Or.inr (fun r hr => by simpa using h r hr)
  · rintro (h | h)
    · subst h
      simp
    · intro r hr
      simpa using h r hr

/-- Totality and shape of the shorthand rewrite on texts whose trimmed form
is nonempty. -/
theorem shorthandRewrite_eq (fieldName text : String)
    (h : trimSpaceChars text.data ≠ []) :
    shorthandRewrite fieldName text =
      some (if shTriggers (trimSpaceChars text.data) then
              fieldName ++ " " ++ text
            else text) := by
  unfold shorthandRewrite shTriggers
  cases hts : trimSpaceChars text.data with
  | nil => exact absurd hts h
  | cons c rest =>
    by_cases h1 : c = '!'
    · cases rest with
      | nil => simp [h1]
      | cons c2 rest2 =>
        by_cases h2 : c2 = '='
        · simp [h1, h2]
        · simp [h1, h2]
    · by_cases h3 : (c == '<' || c == '>' || c == '=') = true
      · simp [h1, h3]
      · simp [h1, h3]


theorem stMono_refl (st : EvalState) : stMono st st :=
  ⟨fun _ hx => hx, fun _ hx => hx⟩

theorem stMono_trans {a b c : EvalState} (h1 : stMono a b) (h2 : stMono b c) :
    stMono a c :=
  ⟨fun x hx => h2.1 x (h1.1 x hx), fun x hx => h2.2 x (h1.2 x hx)⟩

/-- A successful evalBoolExpr leaves the regexp cache alone and either hits
the script cache (no compile, cache unchanged) or misses it (one compile,
the text inserted). -/
theorem evalBoolExpr_ok (eng : Engine) (st : EvalState) (name : String)
    (w : Value) (expr : String) (b : Bool) (st2 : EvalState)
    (h : evalBoolExpr eng st name w expr = .ok (b, st2)) :
    st2.regexps = st.regexps ∧
      ((expr ∈ st.scripts ∧ st2.scripts = st.scripts ∧
          st2.compiles = st.compiles) ∨
        (expr ∉ st.scripts ∧ st2.scripts = expr :: st.scripts ∧
          st2.compiles = st.compiles + 1)) := by
  rcases hm : eng.typeMap w with _ | r
  · by_cases hc : expr ∈ st.scripts
    · rcases hr : eng.jsRun ((name, w) :: st.vmBinds) expr with e | b1
      · simp [evalBoolExpr, hm, hc, hr] at h
      · simp [evalBoolExpr, hm, hc, hr] at h
        obtain ⟨hb, hst⟩ := h
        subst hst
        exact ⟨rfl, Or.inl ⟨hc, rfl, rfl⟩⟩
    · by_cases hok : eng.jsCompileOk expr
      · rcases hr : eng.jsRun ((name, w) :: st.vmBinds) expr with e | b1
        · simp [evalBoolExpr, hm, hc, hok, hr] at h
        · simp [evalBoolExpr, hm, hc, hok, hr] at h
          obtain ⟨hb, hst⟩ := h
          subst hst
          exact ⟨rfl, Or.inr ⟨hc, rfl, rfl⟩⟩
      · simp [evalBoolExpr, hm, hc, hok] at h
  · rcases r with e | w1
    · simp [evalBoolExpr, hm] at h
    · by_cases hc : expr ∈ st.scripts
      · rcases hr : eng.jsRun ((name, w1) :: st.vmBinds) expr with e | b1
        · simp [evalBoolExpr, hm, hc, hr] at h
        · simp [evalBoolExpr, hm, hc, hr] at h
          obtain ⟨hb, hst⟩ := h
          subst hst
          exact ⟨rfl, Or.inl ⟨hc, rfl, rfl⟩⟩
      · by_cases hok : eng.jsCompileOk expr
        · rcases hr : eng.jsRun ((name, w1) :: st.vmBinds) expr with e | b1
          · simp [evalBoolExpr, hm, hc, hok, hr] at h
          · simp [evalBoolExpr, hm, hc, hok, hr] at h
            obtain ⟨hb, hst⟩ := h
            subst hst
            exact ⟨rfl, Or.inr ⟨hc, rfl, rfl⟩⟩
        · simp [evalBoolExpr, hm, hc, hok] at h

/-- A successful evalRegexp leaves the script cache, the compile counter and
the VM bindings alone, and either hits the regexp cache or inserts the
pattern. -/
theorem evalRegexp_ok (eng : Engine) (st : EvalState) (s pattern : String)
    (b : Bool) (st2 : EvalState)
    (h : evalRegexp eng st s pattern = .ok (b, st2)) :
    st2.scripts = st.scripts ∧ st2.compiles = st.compiles ∧
      st2.vmBinds = st.vmBinds ∧
      (st2.regexps = st.regexps ∨ st2.regexps = pattern :: st.regexps) := by
  unfold evalRegexp at h
  split at h
  · cases h
    exact ⟨rfl, rfl, rfl, Or.inl rfl⟩
  · split at h
    · cases h
      exact ⟨rfl, rfl, rfl, Or.inr rfl⟩
    · exact absurd h (by simp)

/-- A successful expression phase appends its (zero or one) result and only
grows the caches. -/
theorem exprPhase_frame (eng : Engine) (v : Validator) (f : Field)
    (iface : Value) (st : EvalState) (res : List Result) (st2 : EvalState)
    (res2 : List Result)
    (h : exprPhase eng v f iface st res = .ok (st2, res2)) :
    (∃ d, res2 = res ++ d) ∧ stMono st st2 := by
  by_cases he : f.exprTag = ""
  · simp [exprPhase, he] at h
    obtain ⟨h1, h2⟩ := h
    subst h1
    subst h2
    exact ⟨⟨[], by simp⟩, stMono_refl st⟩
  · rcases hsr : shorthandRewrite f.name f.exprTag with _ | expr
    · simp [exprPhase, he, hsr] at h
    · rcases heval : evalBoolExpr eng st f.name iface expr with e | ⟨bv, st1⟩
      · simp [exprPhase, he, hsr, heval] at h
      · have hm := evalBoolExpr_ok _ _ _ _ _ _ _ heval
        have mono : stMono st st1 := by
          refine ⟨fun x hx => ?_, fun x hx => ?_⟩
          · rcases hm.2 with ⟨_, hs, _⟩ | ⟨_, hs, _⟩
            · rw [hs]; exact hx
            · rw [hs]; exact List.mem_cons_of_mem _ hx
          · rw [hm.1]; exact hx
        by_cases hrec : (!bv || v.showSuccesses) = true
        · simp [exprPhase, he, hsr, heval, hrec] at h
          obtain ⟨h1, h2⟩ := h
          subst h1
          exact ⟨⟨_, h2.symm⟩, mono⟩
        · simp [exprPhase, he, hsr, heval, hrec] at h
          obtain ⟨h1, h2⟩ := h
          subst h1
          exact ⟨⟨[], by simp [h2]⟩, mono⟩

/-- A successful regexp phase appends its (zero or one) result and only
grows the caches. -/
theorem regexpPhase_frame (eng : Engine) (v : Validator) (f : Field)
    (iface : Value) (st : EvalState) (res : List Result) (st2 : EvalState)
    (res2 : List Result)
    (h : regexpPhase eng v f iface st res = .ok (st2, res2)) :
    (∃ d, res2 = res ++ d) ∧ stMono st st2 := by
  by_cases he : f.regexpTag = ""
  · simp [regexpPhase, he] at h
    obtain ⟨h1, h2⟩ := h
    subst h1
    subst h2
    exact ⟨⟨[], by simp⟩, stMono_refl st⟩
  · rcases heval : evalRegexp eng st (iToStr eng iface) f.regexpTag with e | ⟨bv, st1⟩
    · simp [regexpPhase, he, heval] at h
    · have hm := evalRegexp_ok _ _ _ _ _ _ heval
      have mono : stMono st st1 := by
        refine ⟨fun x hx => ?_, fun x hx => ?_⟩
        · rw [hm.1]; exact hx
        · rcases hm.2.2.2 with hs | hs
          · rw [hs]; exact hx
          · rw [hs]; exact List.mem_cons_of_mem _ hx
      by_cases hrec : (!bv || v.showSuccesses) = true
      · simp [regexpPhase, he, heval, hrec] at h
        obtain ⟨h1, h2⟩ := h
        subst h1
        exact ⟨⟨_, h2.symm⟩, mono⟩
      · simp [regexpPhase, he, heval, hrec] at h
        obtain ⟨h1, h2⟩ := h
        subst h1
        exact ⟨⟨[], by simp [h2]⟩, mono⟩

/-- A successful validateField appends its (zero to two) results and only
grows the caches. -/
theorem validateField_frame (eng : Engine) (v : Validator) (f : Field)
    (iface : Value) (st : EvalState) (res : List Result) (st2 : EvalState)
    (res2 : List Result)
    (h : validateField eng v f iface st res = .ok (st2, res2)) :
    (∃ d, res2 = res ++ d) ∧ stMono st st2 := by
  unfold validateField at h
  rcases hstep : exprPhase eng v f iface st res with e | ⟨st1, res1⟩
  · rw [hstep] at h
    exact absurd h (by simp)
  · rw [hstep] at h
    have h1 := exprPhase_frame _ _ _ _ _ _ _ _ hstep
    have h2 := regexpPhase_frame _ _ _ _ _ _ _ _ h
    rcases h1 with ⟨⟨d1, hd1⟩, mono1⟩
    rcases h2 with ⟨⟨d2, hd2⟩, mono2⟩
    exact ⟨⟨d1 ++ d2, by rw [hd2, hd1, List.append_assoc]⟩,
      stMono_trans mono1 mono2⟩

/-- A successful processTag appends its results and only grows the caches. -/
theorem processTag_frame (eng : Engine) (v : Validator) (f : Field)
    (val : Value) (ro safe addrOK : Bool) (st : EvalState) (res : List Result)
    (st2 : EvalState) (res2 : List Result)
    (h : processTag eng v f val ro safe addrOK st res = .ok (st2, res2)) :
    (∃ d, res2 = res ++ d) ∧ stMono st st2 := by
  by_cases h1 : (f.exprTag == "" && f.regexpTag == "") = true
  · simp only [processTag, h1, if_true] at h
    obtain ⟨h1, h2⟩ := by simpa using h
    subst h1
    subst h2
    exact ⟨⟨[], by simp⟩, stMono_refl st⟩
  · by_cases h2 : (v.asJSON && (f.jsonTag.getD "" == "-")) = true
    · simp only [processTag, h1, h2, Bool.false_eq_true, if_false, if_true] at h
      obtain ⟨h3, h4⟩ := by simpa using h
      subst h3
      subst h4
      exact ⟨⟨[], by simp⟩, stMono_refl st⟩
    · rcases hres : resolveConcrete safe ro addrOK f.name val with e | iv
      · simp only [processTag, h1, h2, Bool.false_eq_true, if_false, hres] at h
        exact absurd h (by simp)
      · rcases iv with _ | iface
        · simp only [processTag, h1, h2, Bool.false_eq_true, if_false, hres] at h
          obtain ⟨h3, h4⟩ := by simpa using h
          subst h3
          subst h4
          exact ⟨⟨[], by simp⟩, stMono_refl st⟩
        · by_cases h3 : (v.asJSON && !(f.fval.kind == Kind.kStruct) &&
            strHasSuffix (f.jsonTag.getD "") ",omitempty" && isZero iface) = true
          · simp only [processTag, h1, h2, Bool.false_eq_true, if_false, hres,
              h3, if_true] at h
            obtain ⟨h4, h5⟩ := by simpa using h
            subst h4
            subst h5
            exact ⟨⟨[], by simp⟩, stMono_refl st⟩
          · simp only [processTag, h1, h2, h3, Bool.false_eq_true, if_false,
              hres] at h
            exact validateField_frame _ _ _ _ _ _ _ _ h

mutual
/-- A successful traverse only appends results and only grows the caches. -/
theorem traverse_frame (eng : Engine) (v : Validator) (safe ro addrOK : Bool)
    (val : Value) (st : EvalState) (res : List Result) (st2 : EvalState)
    (res2 : List Result)
    (h : traverse eng v safe ro addrOK val st res = .ok (st2, res2)) :
    (∃ d, res2 = res ++ d) ∧ stMono st st2 := by
  cases val with
  | vstr s =>
    obtain ⟨h1, h2⟩ := by simpa [traverse] using h
    subst h1
    subst h2
    exact ⟨⟨[], by simp⟩, stMono_refl st⟩
  | vint i =>
    obtain ⟨h1, h2⟩ := by simpa [traverse] using h
    subst h1
    subst h2
    exact ⟨⟨[], by simp⟩, stMono_refl st⟩
  | vuint n =>
    obtain ⟨h1, h2⟩ := by simpa [traverse] using h
    subst h1
    subst h2
    exact ⟨⟨[], by simp⟩, stMono_refl st⟩
  | vbool b =>
    obtain ⟨h1, h2⟩ := by simpa [traverse] using h
    subst h1
    subst h2
    exact ⟨⟨[], by simp⟩, stMono_refl st⟩
  | vtime ms =>
    obtain ⟨h1, h2⟩ := by simpa [traverse] using h
    subst h1
    subst h2
    exact ⟨⟨[], by simp⟩, stMono_refl st⟩
  | vptrNil =>
    obtain ⟨h1, h2⟩ := by simpa [traverse] using h
    subst h1
    subst h2
    exact ⟨⟨[], by simp⟩, stMono_refl st⟩
  | vifaceNil =>
    obtain ⟨h1, h2⟩ := by simpa [traverse] using h
    subst h1
    subst h2
    exact ⟨⟨[], by simp⟩, stMono_refl st⟩
  | vptr w => exact traverse_frame eng v safe ro true w st res st2 res2 h
  | viface w => exact traverse_frame eng v safe ro false w st res st2 res2 h
  | vslice xs =>
    exact traverseElems_frame eng v safe ro addrOK xs st res st2 res2 h
  | vmap kvs =>
    exact traverseEntries_frame eng v safe ro kvs st res st2 res2 h
  | vstruct fs =>
    exact traverseFields_frame eng v safe ro addrOK fs st res st2 res2 h
termination_by sizeOf val

/-- The element loop only appends results and only grows the caches. -/
theorem traverseElems_frame (eng : Engine) (v : Validator)
    (safe ro addrOK : Bool) (xs : Values) (st : EvalState) (res : List Result)
    (st2 : EvalState) (res2 : List Result)
    (h : traverseElems eng v safe ro addrOK xs st res = .ok (st2, res2)) :
    (∃ d, res2 = res ++ d) ∧ stMono st st2 := by
  cases xs with
  | nil =>
    obtain ⟨h1, h2⟩ := by simpa [traverseElems] using h
    subst h1
    subst h2
    exact ⟨⟨[], by simp⟩, stMono_refl st⟩
  | cons x rest =>
    rcases ht : traverse eng v safe ro addrOK x st res with e | ⟨st1, res1⟩
    · rw [show traverseElems eng v safe ro addrOK (.cons x rest) st res =
          (match traverse eng v safe ro addrOK x st res with
           | .error e => .error e
           | .ok (st1, res1) =>
              traverseElems eng v safe ro addrOK rest st1 res1) from rfl,
        ht] at h
      simp at h
    · have h1 := traverse_frame eng v safe ro addrOK x st res st1 res1 ht
      have hrest : traverseElems eng v safe ro addrOK rest st1 res1 =
          .ok (st2, res2) := by
        rw [show traverseElems eng v safe ro addrOK (.cons x rest) st res =
            (match traverse eng v safe ro addrOK x st res with
             | .error e => .error e
             | .ok (st1, res1) =>
                traverseElems eng v safe ro addrOK rest st1 res1) from rfl,
          ht] at h
        exact h
      have h2 := traverseElems_frame eng v safe ro addrOK rest st1 res1
        st2 res2 hrest
      rcases h1 with ⟨⟨d1, hd1⟩, mono1⟩
      rcases h2 with ⟨⟨d2, hd2⟩, mono2⟩
      exact ⟨⟨d1 ++ d2, by rw [hd2, hd1, List.append_assoc]⟩,
        stMono_trans mono1 mono2⟩
termination_by sizeOf xs

/-- The map entry loop only appends results and only grows the caches. -/
theorem traverseEntries_frame (eng : Engine) (v : Validator) (safe ro : Bool)
    (kvs : Pairs) (st : EvalState) (res : List Result) (st2 : EvalState)
    (res2 : List Result)
    (h : traverseEntries eng v safe ro kvs st res = .ok (st2, res2)) :
    (∃ d, res2 = res ++ d) ∧ stMono st st2 := by
  cases kvs with
  | nil =>
    obtain ⟨h1, h2⟩ := by simpa [traverseEntries] using h
    subst h1
    subst h2
    exact ⟨⟨[], by simp⟩, stMono_refl st⟩
  | cons k w rest =>
    rcases ht : traverse eng v safe ro false k st res with e | ⟨st1, res1⟩
    · rw [show traverseEntries eng v safe ro (.cons k w rest) st res =
          (match traverse eng v safe ro false k st res with
           | .error e => .error e
           | .ok (st1, res1) =>
              match traverse eng v safe ro false w st1 res1 with
              | .error e => .error e
              | .ok (st2, res2) =>
                  traverseEntries eng v safe ro rest st2 res2) from rfl,
        ht] at h
      simp at h
    · have h1 := traverse_frame eng v safe ro false k st res st1 res1 ht
      replace h : (match traverse eng v safe ro false w st1 res1 with
          | Except.error e => (Except.error e : Except Failure (EvalState × List Result))
          | Except.ok (stx, resx) =>
              traverseEntries eng v safe ro rest stx resx) =
          Except.ok (st2, res2) := by
        rw [show traverseEntries eng v safe ro (.cons k w rest) st res =
            (match traverse eng v safe ro false k st res with
             | .error e => .error e
             | .ok (st1, res1) =>
                match traverse eng v safe ro false w st1 res1 with
                | .error e => .error e
                | .ok (stx, resx) =>
                    traverseEntries eng v safe ro rest stx resx) from rfl,
          ht] at h
        exact h
      rcases hw : traverse eng v safe ro false w st1 res1 with e | ⟨stx, resx⟩
      · rw [hw] at h
        simp at h
      · rw [hw] at h
        have h2 := traverse_frame eng v safe ro false w st1 res1 stx resx hw
        have h3 := traverseEntries_frame eng v safe ro rest stx resx
          st2 res2 h
        rcases h1 with ⟨⟨d1, hd1⟩, mono1⟩
        rcases h2 with ⟨⟨d2, hd2⟩, mono2⟩
        rcases h3 with ⟨⟨d3, hd3⟩, mono3⟩
        refine ⟨⟨d1 ++ d2 ++ d3, ?_⟩,
          stMono_trans mono1 (stMono_trans mono2 mono3)⟩
        rw [hd3, hd2, hd1]
        simp [List.append_assoc]
termination_by sizeOf kvs

/-- The struct field loop only appends results and only grows the caches. -/
theorem traverseFields_frame (eng : Engine) (v : Validator)
    (safe ro addrOK : Bool) (fields : Fields) (st : EvalState)
    (res : List Result) (st2 : EvalState) (res2 : List Result)
    (h : traverseFields eng v safe ro addrOK fields st res = .ok (st2, res2)) :
    (∃ d, res2 = res ++ d) ∧ stMono st st2 := by
  cases fields with
  | nil =>
    obtain ⟨h1, h2⟩ := by simpa [traverseFields] using h
    subst h1
    subst h2
    exact ⟨⟨[], by simp⟩, stMono_refl st⟩
  | cons f rest =>
    cases f with
    | mk n e r j w =>
      rcases hstep : (if v.asJSON && !(isExportedName n) then
          (Except.ok (st, res) : Except Failure (EvalState × List Result))
        else processTag eng v (.mk n e r j w) w (ro || !(isExportedName n))
            safe addrOK st res) with e1 | ⟨st1, res1⟩
      · rw [show traverseFields eng v safe ro addrOK (.cons (.mk n e r j w) rest)
              st res =
            (match (if v.asJSON && !(isExportedName n) then
                (Except.ok (st, res) : Except Failure (EvalState × List Result))
              else processTag eng v (.mk n e r j w) w (ro || !(isExportedName n))
                  safe addrOK st res) with
             | Except.error e =>
                (Except.error e : Except Failure (EvalState × List Result))
             | Except.ok (st1, res1) =>
                match traverse eng v safe (ro || !(isExportedName n)) addrOK w
                    st1 res1 with
                | Except.error e => Except.error e
                | Except.ok (stx, resx) =>
                    traverseFields eng v safe ro addrOK rest stx resx)
            from rfl, hstep] at h
        simp at h
      · have h1 : (∃ d, res1 = res ++ d) ∧ stMono st st1 := by
          by_cases hh : (v.asJSON && !(isExportedName n)) = true
          · rw [if_pos hh] at hstep
            obtain ⟨ha, hb⟩ := by simpa using hstep
            subst ha
            subst hb
            exact ⟨⟨[], by simp⟩, stMono_refl st⟩
          · rw [if_neg hh] at hstep
            exact processTag_frame _ _ _ _ _ _ _ _ _ _ _ hstep
        replace h : (match traverse eng v safe (ro || !(isExportedName n))
              addrOK w st1 res1 with
            | Except.error e =>
                (Except.error e : Except Failure (EvalState × List Result))
            | Except.ok (stx, resx) =>
                traverseFields eng v safe ro addrOK rest stx resx) =
            Except.ok (st2, res2) := by
          rw [show traverseFields eng v safe ro addrOK
                (.cons (.mk n e r j w) rest) st res =
              (match (if v.asJSON && !(isExportedName n) then
                  (Except.ok (st, res) : Except Failure (EvalState × List Result))
                else processTag eng v (.mk n e r j w) w
                    (ro || !(isExportedName n)) safe addrOK st res) with
               | Except.error e =>
                  (Except.error e : Except Failure (EvalState × List Result))
               | Except.ok (st1, res1) =>
                  match traverse eng v safe (ro || !(isExportedName n)) addrOK w
                      st1 res1 with
                  | Except.error e => Except.error e
                  | Except.ok (stx, resx) =>
                      traverseFields eng v safe ro addrOK rest stx resx)
              from rfl, hstep] at h
          exact h
        rcases hw : traverse eng v safe (ro || !(isExportedName n)) addrOK w
            st1 res1 with e2 | ⟨stx, resx⟩
        · rw [hw] at h
          simp at h
        · rw [hw] at h
          have h2 := traverse_frame eng v safe (ro || !(isExportedName n))
            addrOK w st1 res1 stx resx hw
          have h3 := traverseFields_frame eng v safe ro addrOK rest stx resx
            st2 res2 h
          rcases h1 with ⟨⟨d1, hd1⟩, mono1⟩
          rcases h2 with ⟨⟨d2, hd2⟩, mono2⟩
          rcases h3 with ⟨⟨d3, hd3⟩, mono3⟩
          refine ⟨⟨d1 ++ d2 ++ d3, ?_⟩,
            stMono_trans mono1 (stMono_trans mono2 mono3)⟩
          rw [hd3, hd2, hd1]
          simp [List.append_assoc]
termination_by sizeOf fields
end



mutual
/-- Traversing a value with no tags anywhere changes nothing. -/
theorem traverse_tagFree (eng : Engine) (v : Validator) (safe ro addrOK : Bool)
    (val : Value) (st : EvalState) (res : List Result)
    (h : tagFree val = true) :
    traverse eng v safe ro addrOK val st res = .ok (st, res) := by
  cases val with
  | vstr s => simp [traverse]
  | vint i => simp [traverse]
  | vuint n => simp [traverse]
  | vbool b => simp [traverse]
  | vtime ms => simp [traverse]
  | vptrNil => simp [traverse]
  | vifaceNil => simp [traverse]
  | vptr w =>
    exact traverse_tagFree eng v safe ro true w st res (by simpa [tagFree] using h)
  | viface w =>
    exact traverse_tagFree eng v safe ro false w st res (by simpa [tagFree] using h)
  | vslice xs =>
    exact traverseElems_tagFree eng v safe ro addrOK xs st res
      (by simpa [tagFree] using h)
  | vmap kvs =>
    exact traverseEntries_tagFree eng v safe ro kvs st res
      (by simpa [tagFree] using h)
  | vstruct fs =>
    exact traverseFields_tagFree eng v safe ro addrOK fs st res
      (by simpa [tagFree] using h)
termination_by sizeOf val

theorem traverseElems_tagFree (eng : Engine) (v : Validator)
    (safe ro addrOK : Bool) (xs : Values) (st : EvalState) (res : List Result)
    (h : tagFreeValues xs = true) :
    traverseElems eng v safe ro addrOK xs st res = .ok (st, res) := by
  cases xs with
  | nil => simp [traverseElems]
  | cons x rest =>
    have hx : tagFree x = true := by
      have hh := by simpa [tagFreeValues] using h
      exact hh.1
    have hrest : tagFreeValues rest = true := by
      have hh := by simpa [tagFreeValues] using h
      exact hh.2
    have h1 := traverse_tagFree eng v safe ro addrOK x st res hx
    have h2 := traverseElems_tagFree eng v safe ro addrOK rest st res hrest
    calc traverseElems eng v safe ro addrOK (.cons x rest) st res
        = (match traverse eng v safe ro addrOK x st res with
           | Except.error e =>
              (Except.error e : Except Failure (EvalState × List Result))
           | Except.ok (st1, res1) =>
              traverseElems eng v safe ro addrOK rest st1 res1) := rfl
      _ = traverseElems eng v safe ro addrOK rest st res := by rw [h1]
      _ = .ok (st, res) := h2
termination_by sizeOf xs

theorem traverseEntries_tagFree (eng : Engine) (v : Validator) (safe ro : Bool)
    (kvs : Pairs) (st : EvalState) (res : List Result)
    (h : tagFreePairs kvs = true) :
    traverseEntries eng v safe ro kvs st res = .ok (st, res) := by
  cases kvs with
  | nil => simp [traverseEntries]
  | cons k w rest =>
    obtain ⟨⟨hk, hw⟩, hrest⟩ : (tagFree k = true ∧ tagFree w = true) ∧
        tagFreePairs rest = true := by simpa [tagFreePairs] using h
    have h1 := traverse_tagFree eng v safe ro false k st res hk
    have h2 := traverse_tagFree eng v safe ro false w st res hw
    have h3 := traverseEntries_tagFree eng v safe ro rest st res hrest
    show (match traverse eng v safe ro false k st res with
          | Except.error e =>
              (Except.error e : Except Failure (EvalState × List Result))
          | Except.ok (st1, res1) =>
              match traverse eng v safe ro false w st1 res1 with
              | Except.error e => Except.error e
              | Except.ok (stx, resx) =>
                  traverseEntries eng v safe ro rest stx resx) = .ok (st, res)
    rw [h1]
    show (match traverse eng v safe ro false w st res with
          | Except.error e =>
              (Except.error e : Except Failure (EvalState × List Result))
          | Except.ok (stx, resx) =>
              traverseEntries eng v safe ro rest stx resx) = .ok (st, res)
    rw [h2]
    exact h3
termination_by sizeOf kvs

theorem traverseFields_tagFree (eng : Engine) (v : Validator)
    (safe ro addrOK : Bool) (fields : Fields) (st : EvalState)
    (res : List Result) (h : tagFreeFields fields = true) :
    traverseFields eng v safe ro addrOK fields st res = .ok (st, res) := by
  cases fields with
  | nil => simp [traverseFields]
  | cons f rest =>
    cases f with
    | mk n e r j w =>
      obtain ⟨⟨⟨he, hr⟩, hw⟩, hrest⟩ : ((e = "" ∧ r = "") ∧ tagFree w = true) ∧
          tagFreeFields rest = true := by simpa [tagFreeFields] using h
      have hpt : processTag eng v (.mk n e r j w) w (ro || !(isExportedName n))
          safe addrOK st res = .ok (st, res) := by
        simp [processTag, Field.exprTag, Field.regexpTag, he, hr]
      have hstep : (if v.asJSON && !(isExportedName n) then
          (Except.ok (st, res) : Except Failure (EvalState × List Result))
        else processTag eng v (.mk n e r j w) w (ro || !(isExportedName n))
            safe addrOK st res) = .ok (st, res) := by
        by_cases hb : (v.asJSON && !(isExportedName n)) = true
        · rw [if_pos hb]
        · rw [if_neg hb]
          exact hpt
      have h1 := traverse_tagFree eng v safe (ro || !(isExportedName n)) addrOK
        w st res hw
      have h2 := traverseFields_tagFree eng v safe ro addrOK rest st res hrest
      show (match (if v.asJSON && !(isExportedName n) then
              (Except.ok (st, res) : Except Failure (EvalState × List Result))
            else processTag eng v (.mk n e r j w) w
                (ro || !(isExportedName n)) safe addrOK st res) with
           | Except.error e =>
              (Except.error e : Except Failure (EvalState × List Result))
           | Except.ok (st1, res1) =>
              match traverse eng v safe (ro || !(isExportedName n)) addrOK w
                  st1 res1 with
              | Except.error e => Except.error e
              | Except.ok (stx, resx) =>
                  traverseFields eng v safe ro addrOK rest stx resx) =
          .ok (st, res)
      rw [hstep]
      show (match traverse eng v safe (ro || !(isExportedName n)) addrOK w
              st res with
           | Except.error e =>
              (Except.error e : Except Failure (EvalState × List Result))
           | Except.ok (stx, resx) =>
              traverseFields eng v safe ro addrOK rest stx resx) = .ok (st, res)
      rw [h1]
      exact h2
termination_by sizeOf fields
end


/-- Under safe mode, a flagRO value that is not directly obtainable resolves
to the access error naming the field. -/
theorem resolveConcrete_error (addrOK : Bool) (fieldName : String)
    (val : Value) (h : notObtainable val = true) :
    resolveConcrete true true addrOK fieldName val =
      .error (.goError ("cannot access private field: " ++ fieldName)) := by
  have privCase : ∀ (w : Value) (addr1 : Bool), privFails w = true →
      (match w with
       | .vstr s => (Except.ok (some (Value.vstr s)) :
            Except Failure (Option Value))
       | .vint i => .ok (some (.vint i))
       | .vuint n => .ok (some (.vuint n))
       | .vbool b => .ok (some (.vbool b))
       | .vptrNil => .ok none
       | .vptr w2 =>
          (match privLoop (.vptr w2) with
           | none => .ok none
           | some (w1, a) =>
              if true || !a then
                .error (.goError ("cannot access private field: " ++ fieldName))
              else .ok (some w1))
       | .vifaceNil => .ok none
       | .viface w2 =>
          (match privLoop (.viface w2) with
           | none => .ok none
           | some (w1, a) =>
              if true || !a then
                .error (.goError ("cannot access private field: " ++ fieldName))
              else .ok (some w1))
       | w2 =>
          if true || !addr1 then
            .error (.goError ("cannot access private field: " ++ fieldName))
          else .ok (some w2)) =
      .error (.goError ("cannot access private field: " ++ fieldName)) := by
    intro w addr1 hw
    cases w with
    | vstr s => simp [privFails] at hw
    | vint i => simp [privFails] at hw
    | vuint n => simp [privFails] at hw
    | vbool b => simp [privFails] at hw
    | vptrNil => simp [privFails] at hw
    | vifaceNil => simp [privFails] at hw
    | vptr w2 =>
      rcases hp : privLoop (.vptr w2) with _ | ⟨w1, a⟩
      · rw [privFails, hp] at hw
        simp at hw
      · simp only [hp]
        simp
    | viface w2 =>
      rcases hp : privLoop (.viface w2) with _ | ⟨w1, a⟩
      · rw [privFails, hp] at hw
        simp at hw
      · simp only [hp]
        simp
    | vslice xs => rfl
    | vmap kvs => rfl
    | vstruct fs => rfl
    | vtime ms => rfl
  cases val with
  | vptrNil => simp [notObtainable] at h
  | vifaceNil => simp [notObtainable] at h
  | vptr w => exact privCase w true (by simpa [notObtainable] using h)
  | viface w => exact privCase w false (by simpa [notObtainable] using h)
  | vstr s => simp [notObtainable, privFails] at h
  | vint i => simp [notObtainable, privFails] at h
  | vuint n => simp [notObtainable, privFails] at h
  | vbool b => simp [notObtainable, privFails] at h
  | vslice xs => exact privCase (.vslice xs) addrOK (by rfl)
  | vmap kvs => exact privCase (.vmap kvs) addrOK (by rfl)
  | vstruct fs => exact privCase (.vstruct fs) addrOK (by rfl)
  | vtime ms => exact privCase (.vtime ms) addrOK (by rfl)

/-- doValidation computes its overall flag as the AND over the recorded
results, vacuously true on the empty list. -/
theorem doValidation_ok_iff (eng : Engine) (v : Validator) (rv : Value)
    (safe ro addrOK : Bool) (st : EvalState) (ok : Bool) (res : List Result)
    (st1 : EvalState)
    (h : doValidation eng v rv safe ro addrOK st = .ok (ok, res, st1)) :
    ok = true ↔ (res = [] ∨ ∀ rr ∈ res, rr.valid = true) := by
  unfold doValidation at h
  rcases ht : traverse eng v safe ro addrOK rv st [] with e | ⟨stx, resx⟩
  · rw [ht] at h
    simp at h
  · rw [ht] at h
    obtain ⟨hok, hres, hst⟩ := by simpa using h
    subst hok
    subst hres
    exact allValid_iff resx

/-- evalBoolExpr under an unmapped value with a succeeding run: the bool
comes back and the binding is pushed, whether or not the script was cached. -/
theorem evalBoolExpr_run (eng : Engine) (st : EvalState) (name : String)
    (iv : Value) (expr : String) (b : Bool)
    (hmap : eng.typeMap iv = none)
    (hcok : eng.jsCompileOk expr = true)
    (hrun : eng.jsRun ((name, iv) :: st.vmBinds) expr = .ok b) :
    ∃ stx, evalBoolExpr eng st name iv expr = .ok (b, stx) ∧
      stx.vmBinds = (name, iv) :: st.vmBinds := by
  by_cases hc : expr ∈ st.scripts
  · refine ⟨⟨(name, iv) :: st.vmBinds, st.scripts, st.regexps, st.compiles⟩,
      ?_, rfl⟩
    simp [evalBoolExpr, hmap, hc, hrun]
  · refine ⟨⟨(name, iv) :: st.vmBinds, expr :: st.scripts, st.regexps,
      st.compiles + 1⟩, ?_, rfl⟩
    simp [evalBoolExpr, hmap, hc, hcok, hrun]

/-- Full computation of Validate on a one-field struct carrying only an
expression rule, no json tag, an exported field name, a rule-free field
value, and an engine that runs the (rewritten) text to `b`. -/
theorem validate_single_field (eng : Engine) (v : Validator)
    (name text : String) (w iv : Value) (st : EvalState) (b : Bool)
    (ex : String)
    (hup : isExportedName name = true)
    (hne : text ≠ "")
    (hsr : shorthandRewrite name text = some ex)
    (hres : resolveConcrete true false false name w = .ok (some iv))
    (hw : tagFree w = true)
    (hmap : eng.typeMap iv = none)
    (hcok : eng.jsCompileOk ex = true)
    (hrun : eng.jsRun ((name, iv) :: st.vmBinds) ex = .ok b) :
    ∃ stx, Validate eng v (.vstruct (.cons (.mk name text "" none w) .nil)) st =
      .ok (b, (if (!b || v.showSuccesses) = true
               then [⟨name, iv, w.kind, ex, b⟩] else []), stx) ∧
      stx.vmBinds = (name, iv) :: st.vmBinds := by
  obtain ⟨stx, hev, hbinds⟩ := evalBoolExpr_run eng st name iv ex b hmap hcok hrun
  refine ⟨stx, ?_, hbinds⟩
  have hvf : validateField eng v (.mk name text "" none w) iv st [] =
      .ok (stx, (if (!b || v.showSuccesses) = true
                 then [⟨name, iv, w.kind, ex, b⟩] else [])) := by
    by_cases hrec : (!b || v.showSuccesses) = true
    · simp [validateField, exprPhase, regexpPhase, Field.exprTag,
        Field.regexpTag, Field.name, Field.fval, hne, hsr, hev, hrec]
    · simp [validateField, exprPhase, regexpPhase, Field.exprTag,
        Field.regexpTag, Field.name, Field.fval, hne, hsr, hev, hrec]
  have hpt : processTag eng v (.mk name text "" none w) w false true false
      st [] = .ok (stx, (if (!b || v.showSuccesses) = true
                 then [⟨name, iv, w.kind, ex, b⟩] else [])) := by
    have htags : ((Field.mk name text "" none w).exprTag == "" &&
        (Field.mk name text "" none w).regexpTag == "") = false := by
      simp [Field.exprTag, Field.regexpTag, hne]
    have hjson : (v.asJSON &&
        ((Field.mk name text "" none w).jsonTag.getD "" == "-")) = false := by
      simp [Field.jsonTag]
    have e1 : processTag eng v (.mk name text "" none w) w false true false
        st [] = validateField eng v (.mk name text "" none w) iv st [] := by
      simp [processTag, Field.name, Field.exprTag, Field.regexpTag,
        Field.jsonTag, Field.fval, hne, hres,
        show strHasSuffix "" ",omitempty" = false from rfl]
    rw [e1]
    exact hvf
  have htr : traverse eng v true false false
      (.vstruct (.cons (.mk name text "" none w) .nil)) st [] =
      .ok (stx, (if (!b || v.showSuccesses) = true
                 then [⟨name, iv, w.kind, ex, b⟩] else [])) := by
    have hcond : (v.asJSON && !(isExportedName name)) = false := by
      simp [hup]
    show (match (if v.asJSON && !(isExportedName name) then
            (Except.ok (st, []) : Except Failure (EvalState × List Result))
          else processTag eng v (.mk name text "" none w) w
              (false || !(isExportedName name)) true false st []) with
         | Except.error e =>
            (Except.error e : Except Failure (EvalState × List Result))
         | Except.ok (st1, res1) =>
            match traverse eng v true (false || !(isExportedName name)) false w
                st1 res1 with
            | Except.error e => Except.error e
            | Except.ok (stx2, resx) =>
                traverseFields eng v true false false .nil stx2 resx) = _
    rw [if_neg (by simp [hcond]), show (false || !(isExportedName name)) = false
      by simp [hup], hpt]
    show (match traverse eng v true false false w stx
            (if (!b || v.showSuccesses) = true
             then [⟨name, iv, w.kind, ex, b⟩] else []) with
         | Except.error e =>
            (Except.error e : Except Failure (EvalState × List Result))
         | Except.ok (stx2, resx) =>
            traverseFields eng v true false false .nil stx2 resx) = _
    rw [traverse_tagFree eng v true false false w stx _ hw]
    rfl
  unfold Validate doValidation
  rw [htr]
  show (Except.ok (allValid (if (!b || v.showSuccesses) = true
      then [⟨name, iv, w.kind, ex, b⟩] else []),
      (if (!b || v.showSuccesses) = true
       then [⟨name, iv, w.kind, ex, b⟩] else []), stx) :
      Except Failure (Bool × List Result × EvalState)) = _
  have hall : allValid (if (!b || v.showSuccesses) = true
      then [⟨name, iv, w.kind, ex, b⟩] else []) = b := by
    by_cases hrec : (!b || v.showSuccesses) = true
    · rw [if_pos hrec]
      cases b with
      | true => rfl
      | false => rfl
    · rw [if_neg hrec]
      have hb : b = true := by
        cases b with
        | true => rfl
        | false => simp at hrec
      subst hb
      rfl
  rw [hall]

/-! ## Claim theorems -/

/-- C1: for every call to Validate or ValidateAddressable that returns
without error, the returned ok flag is true iff the Result list is empty or
every entry in it has Valid true (the AND-reduction, vacuously true for no
results). -/
theorem c1_ok_iff_all_valid (eng : Engine) (v : Validator)
    (item itemAddr : Value) (st st' : EvalState) (ok1 ok2 : Bool)
    (res1 res2 : List Result) (st1 st2 : EvalState)
    (h1 : Validate eng v item st = .ok (ok1, res1, st1))
    (h2 : ValidateAddressable eng v itemAddr st' = .ok (ok2, res2, st2)) :
    (ok1 = true ↔ (res1 = [] ∨ ∀ rr ∈ res1, rr.valid = true)) ∧
      (ok2 = true ↔ (res2 = [] ∨ ∀ rr ∈ res2, rr.valid = true)) := by
  constructor
  · exact doValidation_ok_iff eng v item true false false st ok1 res1 st1 h1
  · cases itemAddr with
    | vptr w =>
      exact doValidation_ok_iff eng v w false false true st' ok2 res2 st2 h2
    | viface w =>
      exact doValidation_ok_iff eng v w false false false st' ok2 res2 st2 h2
    | vptrNil => simp [ValidateAddressable] at h2
    | vifaceNil => simp [ValidateAddressable] at h2
    | vstr s => simp [ValidateAddressable] at h2
    | vint i => simp [ValidateAddressable] at h2
    | vuint n => simp [ValidateAddressable] at h2
    | vbool b => simp [ValidateAddressable] at h2
    | vslice xs => simp [ValidateAddressable] at h2
    | vmap kvs => simp [ValidateAddressable] at h2
    | vstruct fs => simp [ValidateAddressable] at h2
    | vtime ms => simp [ValidateAddressable] at h2

theorem c1_witness :
    ((true : Bool) = true ↔
      (([] : List Result) = [] ∨ ∀ rr ∈ ([] : List Result), rr.valid = true)) ∧
    ((true : Bool) = true ↔
      (([] : List Result) = [] ∨ ∀ rr ∈ ([] : List Result), rr.valid = true)) :=
  c1_ok_iff_all_valid engRel vDefault (.vint 3) (.vptr (.vint 3)) st0 st0
    true true [] [] st0 st0 rfl rfl

/-- C2: a tagged non-exported field whose concrete value is not directly
obtainable makes the whole plain-Validate call fail with the access error
naming the field: processTag errors as soon as such a field is reached in
safe mode, and a complete run on a struct with a tagged private slice field
returns the access error (and hence no Result list). -/
theorem c2_private_access_error (eng : Engine) (v : Validator) (f : Field)
    (val : Value) (addrOK : Bool) (st : EvalState) (res : List Result)
    (htags : (f.exprTag == "" && f.regexpTag == "") = false)
    (hjson : (v.asJSON && (f.jsonTag.getD "" == "-")) = false)
    (hval : notObtainable val = true) :
    processTag eng v f val true true addrOK st res =
      .error (.goError ("cannot access private field: " ++ f.name)) ∧
    Validate engRel vPriv
      (.vstruct (.cons (.mk "secret" "secret>1" "" none
        (.vslice (.cons (.vint 2) .nil))) .nil)) st0 =
      .error (.goError "cannot access private field: secret") := by
  refine ⟨?_, rfl⟩
  simp [processTag, htags, hjson, resolveConcrete_error addrOK f.name val hval]

theorem c2_witness :
    processTag engRel vPriv
      (.mk "secret" "secret>1" "" none (.vslice (.cons (.vint 2) .nil)))
      (.vslice (.cons (.vint 2) .nil)) true true false st0 [] =
      .error (.goError ("cannot access private field: " ++ "secret")) ∧
    Validate engRel vPriv
      (.vstruct (.cons (.mk "secret" "secret>1" "" none
        (.vslice (.cons (.vint 2) .nil))) .nil)) st0 =
      .error (.goError "cannot access private field: secret") :=
  c2_private_access_error engRel vPriv
    (.mk "secret" "secret>1" "" none (.vslice (.cons (.vint 2) .nil)))
    (.vslice (.cons (.vint 2) .nil)) false st0 [] rfl rfl rfl

/-- C3 as stated is false on the code: evalRegexp compiles through
regexp.MustCompile, so the first evaluation of an invalid pattern is a
runtime panic that crashes the validation call; it is not returned as the
error result. -/
theorem c3_counterexample :
    Validate engRel vDefault
      (.vstruct (.cons (.mk "A" "" "(" none (.vstr "x")) .nil)) st0 =
      .error (.goPanic "regexp: Compile: error parsing regexp: (") ∧
    ∀ msg, Validate engRel vDefault
      (.vstruct (.cons (.mk "A" "" "(" none (.vstr "x")) .nil)) st0 ≠
      .error (.goError msg) := by
  refine ⟨rfl, fun msg h => ?_⟩
  have h2 := (show Validate engRel vDefault
      (.vstruct (.cons (.mk "A" "" "(" none (.vstr "x")) .nil)) st0 =
      .error (.goPanic "regexp: Compile: error parsing regexp: (")
    from rfl).symm.trans h
  simp at h2

/-- C3 amended: for every pattern-rule whose pattern text is invalid and not
yet cached, the evaluation panics at pattern-compile time (MustCompile), so
the validation call crashes instead of returning a Pattern error or a
Result with valid false. -/
theorem c3_invalid_pattern_panics (eng : Engine) (st : EvalState)
    (s pattern : String) (hv : eng.regexpValid pattern = false)
    (hc : pattern ∉ st.regexps) :
    evalRegexp eng st s pattern =
      .error (.goPanic ("regexp: Compile: error parsing regexp: " ++ pattern)) := by
  simp [evalRegexp, hv, hc]

theorem c3_witness :
    evalRegexp engRel st0 "x" "(" =
      .error (.goPanic ("regexp: Compile: error parsing regexp: " ++ "(")) :=
  c3_invalid_pattern_panics engRel st0 "x" "(" rfl (by simp [st0])

/-- C5 as stated is false on the code: the shorthand-rewrite step indexes
the first byte of the trimmed text without an emptiness check, so a rule
text consisting only of whitespace is an index-out-of-range runtime fault
that crashes the validation call. -/
theorem c5_counterexample :
    shorthandRewrite "A" " " = none ∧
    Validate engRel vDefault
      (.vstruct (.cons (.mk "A" " " "" none (.vint 1)) .nil)) st0 =
      .error (.goPanic "runtime error: index out of range") :=
  ⟨rfl, rfl⟩

/-- C5 amended: for every rule text whose trimmed form is nonempty, the
shorthand-rewrite decision is total: it rewrites to
"fieldName originalText" exactly when the trimmed text starts with one of
the relational starters (a bare less-than, greater-than or equals first
byte, or an exclamation mark followed by an equals sign), and leaves the
text unchanged otherwise; a whitespace-only text faults. -/
theorem c5_rewrite_total (name text : String)
    (h : trimSpaceChars text.data ≠ []) :
    ∃ out, shorthandRewrite name text = some out ∧
      (shTriggers (trimSpaceChars text.data) = true →
        out = name ++ " " ++ text) ∧
      (shTriggers (trimSpaceChars text.data) = false → out = text) := by
  rw [shorthandRewrite_eq name text h]
  refine ⟨_, rfl, fun ht => ?_, fun hf => ?_⟩
  · rw [if_pos ht]
  · rw [if_neg (by simp [hf])]

theorem c5_witness :
    (∃ out, shorthandRewrite "A" ">5" = some out ∧
      (shTriggers (trimSpaceChars ">5".data) = true → out = "A" ++ " " ++ ">5") ∧
      (shTriggers (trimSpaceChars ">5".data) = false → out = ">5")) ∧
    (∃ out, shorthandRewrite "A" "A>5" = some out ∧
      (shTriggers (trimSpaceChars "A>5".data) = true → out = "A" ++ " " ++ "A>5") ∧
      (shTriggers (trimSpaceChars "A>5".data) = false → out = "A>5")) :=
  ⟨c5_rewrite_total "A" ">5" (by simp [trimSpaceChars]),
   c5_rewrite_total "A" "A>5" (by simp [trimSpaceChars])⟩

/-- C6: the compiled-script cache is keyed purely by the literal rule text:
a cached text is never recompiled (cache and compile count unchanged on a
hit), a successful traversal never drops cache entries, and the concrete
two-field run with identical rule text "A>5" on both fields creates exactly
one compiled unit. -/
theorem c6_script_cache :
    (∀ (eng : Engine) (st : EvalState) (name : String) (w : Value)
        (expr : String) (b : Bool) (st2 : EvalState),
        expr ∈ st.scripts →
        evalBoolExpr eng st name w expr = .ok (b, st2) →
        st2.scripts = st.scripts ∧ st2.compiles = st.compiles) ∧
    (∀ (eng : Engine) (v : Validator) (safe ro addrOK : Bool) (val : Value)
        (st : EvalState) (res : List Result) (st2 : EvalState)
        (res2 : List Result),
        traverse eng v safe ro addrOK val st res = .ok (st2, res2) →
        ∀ x ∈ st.scripts, x ∈ st2.scripts) ∧
    Validate engRel vDefault
      (.vstruct (.cons (.mk "A" "A>5" "" none (.vint 7))
        (.cons (.mk "B" "A>5" "" none (.vint 9)) .nil))) st0 =
      .ok (true, [], ⟨[("B", .vint 9), ("A", .vint 7)], ["A>5"], [], 1⟩) := by
  refine ⟨?_, ?_, rfl⟩
  · intro eng st name w expr b st2 hc h
    rcases (evalBoolExpr_ok eng st name w expr b st2 h).2 with
      ⟨_, hs, hn⟩ | ⟨hmiss, _, _⟩
    · exact ⟨hs, hn⟩
    · exact absurd hc hmiss
  · intro eng v safe ro addrOK val st res st2 res2 h
    exact (traverse_frame eng v safe ro addrOK val st res st2 res2 h).2.1

theorem c6_witness :
    (⟨[("A", Value.vint 7)], ["A>5"], [], 5⟩ : EvalState).scripts =
      (⟨[], ["A>5"], [], 5⟩ : EvalState).scripts ∧
    (⟨[("A", Value.vint 7)], ["A>5"], [], 5⟩ : EvalState).compiles =
      (⟨[], ["A>5"], [], 5⟩ : EvalState).compiles :=
  c6_script_cache.1 engRel ⟨[], ["A>5"], [], 5⟩ "A" (.vint 7) "A>5" true
    ⟨[("A", Value.vint 7)], ["A>5"], [], 5⟩ (by simp) rfl

/-- C7: zero-value elision fires only when honorSerializationSemantics is
on, the json directive carries the omit-on-empty suffix, the declared field
type is not record-shaped, and the resolved value is the zero value; when
it fires nothing is evaluated or recorded, and in every other case the rule
is evaluated (processTag proceeds to validateField). -/
theorem c7_zero_elision (eng : Engine) (v : Validator) (f : Field)
    (val iface : Value) (ro safe addrOK : Bool) (st : EvalState)
    (res : List Result)
    (htags : (f.exprTag == "" && f.regexpTag == "") = false)
    (hjson : (v.asJSON && (f.jsonTag.getD "" == "-")) = false)
    (hres : resolveConcrete safe ro addrOK f.name val = .ok (some iface)) :
    processTag eng v f val ro safe addrOK st res =
      (if v.asJSON && !(f.fval.kind == Kind.kStruct) &&
          strHasSuffix (f.jsonTag.getD "") ",omitempty" && isZero iface then
        .ok (st, res)
      else validateField eng v f iface st res) := by
  simp only [processTag, htags, hjson, Bool.false_eq_true, if_false, hres]

theorem c7_witness :
    processTag engRel vDefault
      (.mk "A" "A>5" "" (some "a,omitempty") (.vint 0)) (.vint 0)
      false true false st0 [] = .ok (st0, []) ∧
    processTag engRel vDefault
      (.mk "A" "A>5" "" (some "a,omitempty") (.vint 4)) (.vint 4)
      false true false st0 [] =
      validateField engRel vDefault
        (.mk "A" "A>5" "" (some "a,omitempty") (.vint 4)) (.vint 4) st0 [] := by
  constructor
  · rw [c7_zero_elision engRel vDefault
      (.mk "A" "A>5" "" (some "a,omitempty") (.vint 0)) (.vint 0) (.vint 0)
      false true false st0 [] rfl rfl rfl]
    rfl
  · rw [c7_zero_elision engRel vDefault
      (.mk "A" "A>5" "" (some "a,omitempty") (.vint 4)) (.vint 4) (.vint 4)
      false true false st0 [] rfl rfl rfl]
    rfl

/-- C8: the Result list is ordered exactly by field-visitation order:
traversal only appends (never reorders), a field carrying both rules gets
its expression Result appended before its pattern Result, and the concrete
two-field run shows results in declaration order with the expression rule
of the first field before its pattern rule. -/
theorem c8_result_order :
    (∀ (eng : Engine) (v : Validator) (safe ro addrOK : Bool) (val : Value)
        (st : EvalState) (res : List Result) (st2 : EvalState)
        (res2 : List Result),
        traverse eng v safe ro addrOK val st res = .ok (st2, res2) →
        ∃ d, res2 = res ++ d) ∧
    (∀ (eng : Engine) (v : Validator) (f : Field) (iface : Value)
        (st st1 st2 : EvalState) (res : List Result) (ex : String)
        (b1 b2 : Bool),
        f.exprTag ≠ "" → f.regexpTag ≠ "" → v.showSuccesses = true →
        shorthandRewrite f.name f.exprTag = some ex →
        evalBoolExpr eng st f.name iface ex = .ok (b1, st1) →
        evalRegexp eng st1 (iToStr eng iface) f.regexpTag = .ok (b2, st2) →
        validateField eng v f iface st res =
          .ok (st2, res ++
            [⟨f.name, iface, f.fval.kind, ex, b1⟩,
             ⟨f.name, iface, f.fval.kind, f.regexpTag, b2⟩])) ∧
    Validate engRel ⟨true, true⟩
      (.vstruct (.cons (.mk "A" ">5" "7" none (.vint 7))
        (.cons (.mk "B" ">1" "" none (.vint 3)) .nil))) st0 =
      .ok (true,
        [⟨"A", .vint 7, .kInt, "A >5", true⟩,
         ⟨"A", .vint 7, .kInt, "7", true⟩,
         ⟨"B", .vint 3, .kInt, "B >1", true⟩],
        ⟨[("B", .vint 3), ("A", .vint 7)], ["B >1", "A >5"], ["7"], 2⟩) := by
  refine ⟨?_, ?_, rfl⟩
  · intro eng v safe ro addrOK val st res st2 res2 h
    exact (traverse_frame eng v safe ro addrOK val st res st2 res2 h).1
  · intro eng v f iface st st1 st2 res ex b1 b2 hee hre hshow hsr h1 h2
    simp [validateField, exprPhase, regexpPhase, hee, hre, hshow, hsr, h1, h2]

theorem c8_witness :
    validateField engRel ⟨true, true⟩ (.mk "A" ">5" "7" none (.vint 7))
      (.vint 7) st0 [] =
      .ok (⟨[("A", Value.vint 7)], ["A >5"], ["7"], 1⟩,
        [] ++ [⟨"A", .vint 7, .kInt, "A >5", true⟩,
               ⟨"A", .vint 7, .kInt, "7", true⟩]) :=
  c8_result_order.2.1 engRel ⟨true, true⟩ (.mk "A" ">5" "7" none (.vint 7))
    (.vint 7) st0 ⟨[("A", Value.vint 7)], ["A >5"], [], 1⟩
    ⟨[("A", Value.vint 7)], ["A >5"], ["7"], 1⟩ [] "A >5" true true
    (by simp [Field.exprTag]) (by simp [Field.regexpTag]) rfl rfl rfl rfl

/-- C9: a reference-typed field holding no value is skipped entirely even
when it carries rules: tag processing produces no Results and no error, the
traversal does not recurse into it, and a complete run on a struct whose
only field is a tagged nil pointer succeeds with no results. -/
theorem c9_nil_reference_skipped :
    (∀ (eng : Engine) (v : Validator) (f : Field) (ro safe addrOK : Bool)
        (st : EvalState) (res : List Result),
        processTag eng v f .vptrNil ro safe addrOK st res = .ok (st, res)) ∧
    (∀ (eng : Engine) (v : Validator) (safe ro addrOK : Bool)
        (st : EvalState) (res : List Result),
        traverse eng v safe ro addrOK .vptrNil st res = .ok (st, res)) ∧
    Validate engRel vDefault
      (.vstruct (.cons (.mk "Z" "Z==5" "zz" none .vptrNil) .nil)) st0 =
      .ok (true, [], st0) := by
  refine ⟨?_, fun eng v safe ro addrOK st res => rfl, rfl⟩
  intro eng v f ro safe addrOK st res
  by_cases h1 : (f.exprTag == "" && f.regexpTag == "") = true
  · simp [processTag, h1]
  · by_cases h2 : (v.asJSON && (f.jsonTag.getD "" == "-")) = true
    · simp [processTag, h1, h2]
    · simp [processTag, h1, h2,
        show resolveConcrete safe ro addrOK f.name Value.vptrNil = .ok none
        from rfl]

theorem c9_witness :
    processTag engRel vDefault (.mk "Z" "Z==5" "zz" none .vptrNil) .vptrNil
      false true false st0 [] = .ok (st0, []) :=
  c9_nil_reference_skipped.1 engRel vDefault
    (.mk "Z" "Z==5" "zz" none .vptrNil) false true false st0 []

/-- C10: the Result produced for an expression evaluation stores the text
that was actually evaluated: the rewritten "fieldName originalText" when
the shorthand rewrite fires on the trimmed tag text, and the original tag
text verbatim otherwise. -/
theorem c10_result_stores_rewritten (eng : Engine) (v : Validator) (f : Field)
    (iface : Value) (st st1 : EvalState) (res : List Result) (b : Bool)
    (hnz : trimSpaceChars f.exprTag.data ≠ [])
    (hre : f.regexpTag = "")
    (hshow : v.showSuccesses = true)
    (hev : evalBoolExpr eng st f.name iface
        (if shTriggers (trimSpaceChars f.exprTag.data) then
          f.name ++ " " ++ f.exprTag
        else f.exprTag) = .ok (b, st1)) :
    validateField eng v f iface st res =
      .ok (st1, res ++ [⟨f.name, iface, f.fval.kind,
        (if shTriggers (trimSpaceChars f.exprTag.data) then
          f.name ++ " " ++ f.exprTag
        else f.exprTag), b⟩]) := by
  have hsr := shorthandRewrite_eq f.name f.exprTag hnz
  have hne : f.exprTag ≠ "" := by
    intro hcon
    rw [hcon] at hnz
    exact hnz rfl
  simp [validateField, exprPhase, regexpPhase, hne, hre, hshow, hsr, hev]

theorem c10_witness :
    validateField engRel ⟨true, true⟩ (.mk "A" ">5" "" none (.vint 4))
      (.vint 4) st0 [] =
      .ok (⟨[("A", Value.vint 4)], ["A >5"], [], 1⟩,
        [] ++ [⟨"A", .vint 4, .kInt,
          (if shTriggers (trimSpaceChars (Field.mk "A" ">5" "" none
            (Value.vint 4)).exprTag.data) then
            (Field.mk "A" ">5" "" none (Value.vint 4)).name ++ " " ++
              (Field.mk "A" ">5" "" none (Value.vint 4)).exprTag
          else (Field.mk "A" ">5" "" none (Value.vint 4)).exprTag), false⟩]) :=
  c10_result_stores_rewritten engRel ⟨true, true⟩
    (.mk "A" ">5" "" none (.vint 4)) (.vint 4) st0
    ⟨[("A", Value.vint 4)], ["A >5"], [], 1⟩ [] false
    (by simp [Field.exprTag, trimSpaceChars]) rfl rfl rfl

/-- C4 as stated is false on the code: the shorthand rewrite stores the
rewritten text in the Result, so the two runs return different Result
lists (the expression texts differ: "A >5" against "A>5") even though the
outcomes agree. -/
theorem c4_counterexample :
    Validate engRel vDefault
      (.vstruct (.cons (.mk "A" ">5" "" none (.vint 4)) .nil)) st0 =
      .ok (false, [⟨"A", .vint 4, .kInt, "A >5", false⟩],
        ⟨[("A", .vint 4)], ["A >5"], [], 1⟩) ∧
    Validate engRel vDefault
      (.vstruct (.cons (.mk "A" "A>5" "" none (.vint 4)) .nil)) st0 =
      .ok (false, [⟨"A", .vint 4, .kInt, "A>5", false⟩],
        ⟨[("A", .vint 4)], ["A>5"], [], 1⟩) ∧
    ([⟨"A", .vint 4, .kInt, "A >5", false⟩] : List Result) ≠
      [⟨"A", .vint 4, .kInt, "A>5", false⟩] := by
  refine ⟨rfl, rfl, fun h => ?_⟩
  have h2 := congrArg (List.map (fun (rr : Result) => rr.expr)) h
  simp only [List.map] at h2
  exact absurd h2 (by decide)

/-- C4 amended: a field named A with rule text ">5" behaves identically to
rule text "A>5" except for the stored expression text: for every rule-free
input value whose resolved form the engine treats alike under both texts,
the overall ok outcome coincides and the Result lists agree entry by entry
in name, value, type and validity; the stored texts are "A >5" for the
shorthand run and "A>5" for the explicit run. -/
theorem c4_shorthand_equiv (eng : Engine) (v : Validator) (w iv : Value)
    (st : EvalState) (b : Bool)
    (hw : tagFree w = true)
    (hres : resolveConcrete true false false "A" w = .ok (some iv))
    (hmap : eng.typeMap iv = none)
    (hc1 : eng.jsCompileOk "A >5" = true)
    (hc2 : eng.jsCompileOk "A>5" = true)
    (hr1 : eng.jsRun (("A", iv) :: st.vmBinds) "A >5" = .ok b)
    (hr2 : eng.jsRun (("A", iv) :: st.vmBinds) "A>5" = .ok b) :
    ∃ res1 res2 st1 st2,
      Validate eng v (.vstruct (.cons (.mk "A" ">5" "" none w) .nil)) st =
        .ok (b, res1, st1) ∧
      Validate eng v (.vstruct (.cons (.mk "A" "A>5" "" none w) .nil)) st =
        .ok (b, res2, st2) ∧
      res1.map (fun rr => (rr.name, rr.value, rr.ty, rr.valid)) =
        res2.map (fun rr => (rr.name, rr.value, rr.ty, rr.valid)) ∧
      res1.map (fun rr => rr.expr) =
        (if (!b || v.showSuccesses) = true then ["A >5"] else []) ∧
      res2.map (fun rr => rr.expr) =
        (if (!b || v.showSuccesses) = true then ["A>5"] else []) := by
  obtain ⟨st1, h1, hb1⟩ := validate_single_field eng v "A" ">5" w iv st b
    "A >5" rfl (by decide) rfl hres hw hmap hc1 hr1
  obtain ⟨st2, h2, hb2⟩ := validate_single_field eng v "A" "A>5" w iv st b
    "A>5" rfl (by decide) rfl hres hw hmap hc2 hr2
  refine ⟨_, _, st1, st2, h1, h2, ?_, ?_, ?_⟩ <;>
    by_cases hrec : (!b || v.showSuccesses) = true <;>
    simp [hrec]

theorem c4_witness :
    ∃ res1 res2 st1 st2,
      Validate engRel vDefault
        (.vstruct (.cons (.mk "A" ">5" "" none (.vint 4)) .nil)) st0 =
        .ok (false, res1, st1) ∧
      Validate engRel vDefault
        (.vstruct (.cons (.mk "A" "A>5" "" none (.vint 4)) .nil)) st0 =
        .ok (false, res2, st2) ∧
      res1.map (fun rr => (rr.name, rr.value, rr.ty, rr.valid)) =
        res2.map (fun rr => (rr.name, rr.value, rr.ty, rr.valid)) ∧
      res1.map (fun rr => rr.expr) =
        (if (!false || vDefault.showSuccesses) = true then ["A >5"] else []) ∧
      res2.map (fun rr => rr.expr) =
        (if (!false || vDefault.showSuccesses) = true then ["A>5"] else []) :=
  c4_shorthand_equiv engRel vDefault (.vint 4) (.vint 4) st0 false
    rfl rfl rfl rfl rfl rfl rfl

end Tageval
